import Mathlib

set_option maxHeartbeats 1000000

/-!
Verification of the bvp2d step-02 sparse iterative linear solver family
(driver: src/bvp2d/step-02/linsol_test_2d.cc).

The driver is the only source file present; the sparse matrix container
and the four solvers it uses (sparse_matrix.h, jacobi_solver.h,
sor_solver.h, ssor_solver.h, cg_solver.h, Vector.h) are declared there but
their code is not in the repository, so those components are modelled from
the specification's description of them.  The driver itself (argument
handling, matrix assembly, boundary elimination, reporting) is translated
directly from linsol_test_2d.cc.
-/

/-- Modelled from the spec: the finalized sparse matrix of sparse_matrix.h
(the header is not among the repository sources; only the driver is).  Per
the spec's data model, after finalization each row stores its diagonal
entry at a known offset, separate from the ordered off-diagonal
(column-index, value) pairs, giving O(1) diagonal access.  We represent the
finalized form as the diagonal value plus the list of off-diagonal entries
of every row. -/
structure SparseMatrix (K : Type) (n : ℕ) where
  diag : Fin n → K
  off : Fin n → List (Fin n × K)

/-- Modelled from the spec: well-formedness of a finalized matrix row
("column indices within a row are unique"; the diagonal is stored apart
from the off-diagonal entries, so no off-diagonal entry sits on the
diagonal column). -/
def SparseMatrix.WF {K : Type} {n : ℕ} (A : SparseMatrix K n) : Prop :=
  ∀ i : Fin n, (∀ e ∈ A.off i, e.1 ≠ i) ∧ ((A.off i).map Prod.fst).Nodup

/-- Modelled from the spec: read-only entry lookup (operator() of
sparse_matrix.h): the diagonal slot for col = row, otherwise the stored
off-diagonal value, and the field's zero element if no entry exists. -/
def SparseMatrix.get {K : Type} [Field K] {n : ℕ} (A : SparseMatrix K n)
    (i j : Fin n) : K :=
  if j = i then A.diag i
  else Option.elim ((A.off i).find? (fun e => e.1 = j)) 0 Prod.snd

/-- Modelled from the spec: the off-diagonal part of row i applied to a
dense vector, the sum of value * x[col] over the stored entries. -/
def SparseMatrix.rowSum {K : Type} [Field K] {n : ℕ} (A : SparseMatrix K n)
    (i : Fin n) (x : Fin n → K) : K :=
  ((A.off i).map (fun e => e.2 * x e.1)).sum

/-- Modelled from the spec: multiply(x, result) computes result = A * x,
each row contributing its diagonal term plus its off-diagonal row sum. -/
def SparseMatrix.multiply {K : Type} [Field K] {n : ℕ} (A : SparseMatrix K n)
    (x : Fin n → K) : Fin n → K :=
  fun i => A.diag i * x i + A.rowSum i x

/-- Modelled from the spec: zero_off_diag(row) sets every off-diagonal
entry of the given row to zero, leaving the diagonal entry unchanged. -/
def SparseMatrix.zero_off_diag {K : Type} [Field K] {n : ℕ}
    (A : SparseMatrix K n) (r : Fin n) : SparseMatrix K n :=
  { diag := A.diag
    off := fun i => if i = r then (A.off i).map (fun e => (e.1, 0)) else A.off i }

/-- C1: after zero_off_diag(r), multiplying by any dense vector x gives
diagonal[r] * x[r] at position r, the diagonal entry of row r is unchanged,
and the multiply result at every other row s is exactly what it was for the
original matrix (so it is unaffected by row r's former off-diagonal
entries). -/
theorem zero_off_diag_multiply {K : Type} [Field K] {n : ℕ}
    (A : SparseMatrix K n) (r : Fin n) (x : Fin n → K) :
    (A.zero_off_diag r).multiply x r = A.diag r * x r ∧
    (A.zero_off_diag r).diag r = A.diag r ∧
    ∀ s : Fin n, s ≠ r → (A.zero_off_diag r).multiply x s = A.multiply x s := by
  refine ⟨?_, rfl, ?_⟩
  · simp only [SparseMatrix.multiply, SparseMatrix.rowSum, SparseMatrix.zero_off_diag,
      if_pos rfl, eq_self_iff_true, if_true, List.map_map]
    have h0 : ((A.off r).map ((fun e => e.2 * x e.1) ∘ fun e : Fin n × K => (e.1, (0 : K)))).sum
        = (0 : K) := by
      induction A.off r with
      | nil => simp
      | cons e t ih => simp [ih]
    rw [h0, add_zero]
  · intro s hs
    simp only [SparseMatrix.multiply, SparseMatrix.rowSum, SparseMatrix.zero_off_diag,
      if_neg hs]

/-- C1 witness: a concrete 2x2 matrix over ℚ evaluated at row 0. -/
theorem zero_off_diag_multiply_witness :
    ((⟨fun i => if i = 0 then 4 else 5, fun i =>
        if i = 0 then [(1, (-1 : ℚ))] else [(0, -2)]⟩ :
      SparseMatrix ℚ 2).zero_off_diag 0).multiply (fun i => if i = 0 then 3 else 7) 0
      = (⟨fun i => if i = 0 then 4 else 5, fun i =>
        if i = 0 then [(1, (-1 : ℚ))] else [(0, -2)]⟩ :
      SparseMatrix ℚ 2).diag 0 * (fun i : Fin 2 => if i = 0 then (3 : ℚ) else 7) 0 :=
  (zero_off_diag_multiply _ 0 _).1

/-- C9: zero_off_diag is idempotent: applying it twice to the same row
leaves the matrix in the same state as applying it once (the driver relies
on this because the four grid-corner rows receive zero_off_diag from both
boundary loops). -/
theorem zero_off_diag_idem {K : Type} [Field K] {n : ℕ}
    (A : SparseMatrix K n) (r : Fin n) :
    (A.zero_off_diag r).zero_off_diag r = A.zero_off_diag r := by
  unfold SparseMatrix.zero_off_diag
  refine congrArg _ ?_
  funext i
  by_cases h : i = r
  · simp [h, List.map_map, Function.comp]
  · simp [h]

/-- Modelled from the spec: the Jacobi sweep of jacobi_solver.h (the header
is not among the repository sources).  Every unknown's new value is
computed from the previous full iterate u only: the whole sweep is a pure
function of u, so no value written during a sweep can be read by another
unknown's update in the same sweep. -/
def jacobiSweep {K : Type} [Field K] {n : ℕ} (A : SparseMatrix K n)
    (f : Fin n → K) (u : Fin n → K) : Fin n → K :=
  fun i => (f i - A.rowSum i u) / A.diag i

/-- The sparse off-diagonal row sum agrees with the dense sum over all
columns other than the diagonal, for a well-formed row: each stored entry
is found by lookup exactly once and absent columns contribute zero. -/
theorem sum_erase_get_eq_rowSum {K : Type} [Field K] {n : ℕ} (i : Fin n)
    (u : Fin n → K) :
    ∀ l : List (Fin n × K), (∀ e ∈ l, e.1 ≠ i) → (l.map Prod.fst).Nodup →
    (∑ j ∈ Finset.univ.erase i,
        Option.elim (l.find? (fun e => e.1 = j)) 0 Prod.snd * u j)
      = (l.map (fun e => e.2 * u e.1)).sum := by
  intro l
  induction l with
  | nil => intro _ _; simp
  | cons e t ih =>
    intro hne hnd
    have he1 : e.1 ∈ Finset.univ.erase i := by
      simp [Finset.mem_erase, hne e (List.mem_cons_self e t)]
    have hkey : e.1 ∉ t.map Prod.fst := by
      have := hnd
      simp only [List.map_cons, List.nodup_cons] at this
      exact this.1
    have hfind_t : t.find? (fun e' => e'.1 = e.1) = none := by
      rw [List.find?_eq_none]
      intro a ha
      simp only [decide_eq_true_eq]
      intro hcontra
      exact hkey (by simpa [hcontra] using List.mem_map_of_mem Prod.fst ha)
    have hterm : ∀ j ∈ Finset.univ.erase i,
        Option.elim ((e :: t).find? (fun e' => e'.1 = j)) 0 Prod.snd * u j
        = (if e.1 = j then e.2 * u j else
            Option.elim (t.find? (fun e' => e'.1 = j)) 0 Prod.snd * u j) := by
      intro j _
      by_cases hj : e.1 = j
      · simp [List.find?_cons, hj]
      · simp [List.find?_cons, hj]
    rw [Finset.sum_congr rfl hterm]
    rw [← Finset.add_sum_erase _ _ he1]
    have hrest : ∀ j ∈ (Finset.univ.erase i).erase e.1,
        (if e.1 = j then e.2 * u j else
            Option.elim (t.find? (fun e' => e'.1 = j)) 0 Prod.snd * u j)
        = Option.elim (t.find? (fun e' => e'.1 = j)) 0 Prod.snd * u j := by
      intro j hj
      have : j ≠ e.1 := (Finset.mem_erase.mp hj).1
      simp [Ne.symm this]
    rw [Finset.sum_congr rfl hrest]
    have hsplit : (∑ j ∈ (Finset.univ.erase i).erase e.1,
        Option.elim (t.find? (fun e' => e'.1 = j)) 0 Prod.snd * u j)
        = ∑ j ∈ Finset.univ.erase i,
            Option.elim (t.find? (fun e' => e'.1 = j)) 0 Prod.snd * u j := by
      rw [← Finset.add_sum_erase _ _ he1, hfind_t]
      simp
    rw [hsplit]
    have hne_t : ∀ e' ∈ t, e'.1 ≠ i := fun e' he' => hne e' (List.mem_cons_of_mem e he')
    have hnd_t : (t.map Prod.fst).Nodup := by
      simp only [List.map_cons, List.nodup_cons] at hnd
      exact hnd.2
    rw [ih hne_t hnd_t]
    simp

/-- C3: for a well-formed matrix, the Jacobi update of unknown i is
(f[i] - sum over j different from i of A[i][j] * u_old[j]) / A[i][i], a
function of the previous full iterate u_old only (the sweep is a
simultaneous map of the old iterate, so no in-sweep value is read). -/
theorem jacobi_update_formula {K : Type} [Field K] {n : ℕ}
    (A : SparseMatrix K n) (hA : A.WF) (f u : Fin n → K) (i : Fin n) :
    jacobiSweep A f u i
      = (f i - ∑ j ∈ Finset.univ.erase i, A.get i j * u j) / A.get i i := by
  have hdiag : A.get i i = A.diag i := by simp [SparseMatrix.get]
  have hsum : (∑ j ∈ Finset.univ.erase i, A.get i j * u j) = A.rowSum i u := by
    have hcongr : ∀ j ∈ Finset.univ.erase i,
        A.get i j * u j
        = Option.elim ((A.off i).find? (fun e => e.1 = j)) 0 Prod.snd * u j := by
      intro j hj
      have : j ≠ i := (Finset.mem_erase.mp hj).1
      simp [SparseMatrix.get, this]
    rw [Finset.sum_congr rfl hcongr]
    exact sum_erase_get_eq_rowSum i u (A.off i) (hA i).1 (hA i).2
  rw [jacobiSweep, hdiag, hsum]

/-- C3 witness: the Jacobi update formula evaluated on a concrete
well-formed 2x2 matrix over ℚ. -/
theorem jacobi_update_formula_witness :
    jacobiSweep (⟨fun i => if i = 0 then 4 else 5, fun i =>
        if i = 0 then [(1, (-1 : ℚ))] else [(0, -2)]⟩ : SparseMatrix ℚ 2)
      (fun i => if i = 0 then 1 else 2) (fun i => if i = 0 then 3 else 7) 0
    = ((fun i : Fin 2 => if i = 0 then (1 : ℚ) else 2) 0
        - ∑ j ∈ Finset.univ.erase 0,
            (⟨fun i => if i = 0 then 4 else 5, fun i =>
              if i = 0 then [(1, (-1 : ℚ))] else [(0, -2)]⟩ : SparseMatrix ℚ 2).get 0 j
            * (fun i : Fin 2 => if i = 0 then (3 : ℚ) else 7) j)
      / (⟨fun i => if i = 0 then 4 else 5, fun i =>
          if i = 0 then [(1, (-1 : ℚ))] else [(0, -2)]⟩ : SparseMatrix ℚ 2).get 0 0 :=
  jacobi_update_formula _ (by unfold SparseMatrix.WF; decide) _ _ 0

/-- Modelled from the spec: the Gauss-Seidel update of unknown i, computed
from the current working vector v (which already holds new values at
indices updated earlier in the sweep). -/
def gsUpdate {K : Type} [Field K] {n : ℕ} (A : SparseMatrix K n)
    (f : Fin n → K) (v : Fin n → K) (i : Fin n) : K :=
  (f i - A.rowSum i v) / A.diag i

/-- Modelled from the spec: one forward SOR sweep of sor_solver.h (the
header is not among the repository sources): unknowns are overwritten in
place in increasing index order, each set to
(1 - omega) * old value + omega * Gauss-Seidel update. -/
def sorSweep {K : Type} [Field K] {n : ℕ} (A : SparseMatrix K n)
    (f : Fin n → K) (omega : K) (u : Fin n → K) : Fin n → K :=
  (List.finRange n).foldl
    (fun v i => Function.update v i ((1 - omega) * v i + omega * gsUpdate A f v i)) u

/-- Plain Gauss-Seidel sweep, written from the spec's words for the
refinement comparison of C5: unknowns overwritten in place in increasing
index order, each set directly to its Gauss-Seidel update. -/
def gaussSeidelSweep {K : Type} [Field K] {n : ℕ} (A : SparseMatrix K n)
    (f : Fin n → K) (u : Fin n → K) : Fin n → K :=
  (List.finRange n).foldl (fun v i => Function.update v i (gsUpdate A f v i)) u

/-- Modelled from the spec: one backward SOR half-sweep (decreasing index
order), used by SSOR. -/
def sorSweepBack {K : Type} [Field K] {n : ℕ} (A : SparseMatrix K n)
    (f : Fin n → K) (omega : K) (u : Fin n → K) : Fin n → K :=
  (List.finRange n).reverse.foldl
    (fun v i => Function.update v i ((1 - omega) * v i + omega * gsUpdate A f v i)) u

/-- Modelled from the spec: one SSOR iteration of ssor_solver.h: a forward
SOR half-sweep followed by a backward SOR half-sweep, both with the same
relaxation factor. -/
def ssorSweep {K : Type} [Field K] {n : ℕ} (A : SparseMatrix K n)
    (f : Fin n → K) (omega : K) (u : Fin n → K) : Fin n → K :=
  sorSweepBack A f omega (sorSweep A f omega u)

/-- C5: with relaxation factor omega = 1 the SOR sweep is exactly the plain
Gauss-Seidel sweep, so for every matrix, right-hand side and initial
iterate the two methods produce the same sequence of iterates (identical,
exactly, in the exact-arithmetic model). -/
theorem sor_omega_one_eq_gauss_seidel {K : Type} [Field K] {n : ℕ}
    (A : SparseMatrix K n) (f u0 : Fin n → K) (k : ℕ) :
    (sorSweep A f 1)^[k] u0 = (gaussSeidelSweep A f)^[k] u0 := by
  have hstep : sorSweep A f (1 : K) = gaussSeidelSweep A f := by
    funext u
    unfold sorSweep gaussSeidelSweep
    have hfn : (fun (v : Fin n → K) (i : Fin n) =>
        Function.update v i ((1 - (1 : K)) * v i + 1 * gsUpdate A f v i))
        = fun (v : Fin n → K) (i : Fin n) => Function.update v i (gsUpdate A f v i) := by
      funext v i
      simp
    rw [hfn]
  rw [hstep]

/-- Modelled from the spec: the shared solve loop of the four solvers:
iterate up to max_iter times, after each sweep test the convergence
criterion, return the current iterate together with the number of sweeps
performed (max_iter when the criterion is never met). -/
def runSolve {σ : Type} (step : σ → σ) (conv : σ → Bool) : ℕ → σ → σ × ℕ
  | 0, s => (s, 0)
  | fuel + 1, s =>
    let s1 := step s
    if conv s1 then (s1, 1)
    else
      let r := runSolve step conv fuel s1
      (r.1, r.2 + 1)

/-- If the convergence test fails at every iterate produced within the
budget, the loop runs the full budget and reports exactly that many
iterations, returning the last iterate. -/
theorem runSolve_exhaust {σ : Type} (step : σ → σ) (conv : σ → Bool) :
    ∀ (fuel : ℕ) (s : σ), (∀ k, 1 ≤ k → k ≤ fuel → conv (step^[k] s) = false) →
    runSolve step conv fuel s = (step^[fuel] s, fuel) := by
  intro fuel
  induction fuel with
  | zero =>
    intro s _
    simp [runSolve]
  | succ m ih =>
    intro s h
    have h1 : conv (step s) = false := by
      simpa using h 1 le_rfl (Nat.succ_le_succ (Nat.zero_le m))
    have hrec : runSolve step conv m (step s) = (step^[m] (step s), m) := by
      refine ih (step s) ?_
      intro k hk1 hkm
      rw [← Function.iterate_succ_apply]
      exact h (k + 1) (Nat.succ_le_succ (Nat.zero_le k)) (Nat.succ_le_succ hkm)
    rw [runSolve, h1]
    simp only [Bool.false_eq_true, if_false, hrec, Function.iterate_succ_apply]

/-- Modelled from the spec: squared Euclidean norm of a dense vector (the
solvers compare norms; we compare squared norms, which is equivalent for
nonnegative tolerances and keeps the model inside the field). -/
def sqNorm {K : Type} [Field K] {n : ℕ} (v : Fin n → K) : K :=
  ∑ i, v i * v i

/-- Modelled from the spec: the residual f - A * u of an iterate. -/
def resid {K : Type} [Field K] {n : ℕ} (A : SparseMatrix K n)
    (f u : Fin n → K) : Fin n → K :=
  fun i => f i - A.multiply u i

/-- Modelled from the spec: the shared convergence criterion, residual norm
at most tolerance times the initial residual norm, in squared form. -/
def convOK {n : ℕ} (A : SparseMatrix ℚ n) (f : Fin n → ℚ) (tol r0sq : ℚ)
    (u : Fin n → ℚ) : Bool :=
  decide (sqNorm (resid A f u) ≤ tol * tol * r0sq)

/-- Modelled from the spec: the Jacobi solver's solve member: run Jacobi
sweeps until the criterion is met or max_iter sweeps are done, returning
the final iterate and the iteration count. -/
def jacobiSolve {n : ℕ} (A : SparseMatrix ℚ n) (maxIter : ℕ) (tol : ℚ)
    (u0 f : Fin n → ℚ) : (Fin n → ℚ) × ℕ :=
  runSolve (jacobiSweep A f) (convOK A f tol (sqNorm (resid A f u0))) maxIter u0

/-- Modelled from the spec: the SOR solver's solve member. -/
def sorSolve {n : ℕ} (A : SparseMatrix ℚ n) (maxIter : ℕ) (tol omega : ℚ)
    (u0 f : Fin n → ℚ) : (Fin n → ℚ) × ℕ :=
  runSolve (sorSweep A f omega) (convOK A f tol (sqNorm (resid A f u0))) maxIter u0

/-- Modelled from the spec: the SSOR solver's solve member (forward then
backward half-sweep per iteration). -/
def ssorSolve {n : ℕ} (A : SparseMatrix ℚ n) (maxIter : ℕ) (tol omega : ℚ)
    (u0 f : Fin n → ℚ) : (Fin n → ℚ) × ℕ :=
  runSolve (ssorSweep A f omega) (convOK A f tol (sqNorm (resid A f u0))) maxIter u0

/-- Modelled from the spec: the conjugate gradient state, the solution
iterate u, the recurrence residual r and the search direction p. -/
structure CGState (K : Type) (n : ℕ) where
  u : Fin n → K
  r : Fin n → K
  p : Fin n → K

/-- Dot product of two dense vectors. -/
def dotProd {K : Type} [Field K] {n : ℕ} (v w : Fin n → K) : K :=
  ∑ i, v i * w i

/-- Modelled from the spec: one step of the standard CG recurrence, written
over an abstract matrix-vector product so that the same update rule can be
applied both to the sparse matrix model and to a dense Mathlib matrix. -/
def cgStepWith {K : Type} [Field K] {n : ℕ}
    (mul : (Fin n → K) → (Fin n → K)) (s : CGState K n) : CGState K n :=
  let w := mul s.p
  let alpha := dotProd s.r s.r / dotProd s.p w
  let r1 := s.r - alpha • w
  let beta := dotProd r1 r1 / dotProd s.r s.r
  { u := s.u + alpha • s.p
    r := r1
    p := r1 + beta • s.p }

/-- Modelled from the spec: CG initialization, r0 = f - A u0 and p0 = r0. -/
def cgInit {K : Type} [Field K] {n : ℕ} (A : SparseMatrix K n)
    (f u0 : Fin n → K) : CGState K n :=
  { u := u0, r := resid A f u0, p := resid A f u0 }

/-- Modelled from the spec: the CG solver's solve member: iterate the CG
recurrence until the residual criterion is met or max_iter steps are done,
returning the final solution iterate and the iteration count. -/
def cgLoop {n : ℕ} (A : SparseMatrix ℚ n) (maxIter : ℕ) (tol : ℚ)
    (u0 f : Fin n → ℚ) : CGState ℚ n × ℕ :=
  runSolve (cgStepWith A.multiply)
    (fun s => decide (sqNorm s.r ≤ tol * tol * sqNorm (cgInit A f u0).r))
    maxIter (cgInit A f u0)

/-- Modelled from the spec: the CG solver's solve member returns the final
solution iterate and the iteration count of the loop. -/
def cgSolve {n : ℕ} (A : SparseMatrix ℚ n) (maxIter : ℕ) (tol : ℚ)
    (u0 f : Fin n → ℚ) : (Fin n → ℚ) × ℕ :=
  ((cgLoop A maxIter tol u0 f).1.u, (cgLoop A maxIter tol u0 f).2)

/-- C2: for each of the four solvers, exhausting max_iter iterations
without the convergence criterion ever being met still returns normally,
with iteration count exactly max_iter and the solution equal to the last
iterate (the max_iter-fold sweep of the initial data); no exceptional
outcome exists, since each solve is a total function. -/
theorem solvers_return_max_iter_on_exhaustion {n : ℕ} (A : SparseMatrix ℚ n)
    (f u0 : Fin n → ℚ) (maxIter : ℕ) (tol omega : ℚ) :
    ((∀ k, 1 ≤ k → k ≤ maxIter →
        convOK A f tol (sqNorm (resid A f u0)) ((jacobiSweep A f)^[k] u0) = false) →
      jacobiSolve A maxIter tol u0 f = ((jacobiSweep A f)^[maxIter] u0, maxIter)) ∧
    ((∀ k, 1 ≤ k → k ≤ maxIter →
        convOK A f tol (sqNorm (resid A f u0)) ((sorSweep A f omega)^[k] u0) = false) →
      sorSolve A maxIter tol omega u0 f = ((sorSweep A f omega)^[maxIter] u0, maxIter)) ∧
    ((∀ k, 1 ≤ k → k ≤ maxIter →
        convOK A f tol (sqNorm (resid A f u0)) ((ssorSweep A f omega)^[k] u0) = false) →
      ssorSolve A maxIter tol omega u0 f = ((ssorSweep A f omega)^[maxIter] u0, maxIter)) ∧
    ((∀ k, 1 ≤ k → k ≤ maxIter →
        decide (sqNorm ((cgStepWith A.multiply)^[k] (cgInit A f u0)).r
          ≤ tol * tol * sqNorm (cgInit A f u0).r) = false) →
      cgSolve A maxIter tol u0 f
        = (((cgStepWith A.multiply)^[maxIter] (cgInit A f u0)).u, maxIter)) := by
  refine ⟨fun h => ?_, fun h => ?_, fun h => ?_, fun h => ?_⟩
  · exact runSolve_exhaust _ _ maxIter u0 h
  · exact runSolve_exhaust _ _ maxIter u0 h
  · exact runSolve_exhaust _ _ maxIter u0 h
  · unfold cgSolve cgLoop
    rw [runSolve_exhaust _ _ maxIter (cgInit A f u0) h]

/-- A concrete 2x2 system used to witness non-convergence: the zero matrix
with right-hand side (1, 0).  Every multiply result is zero, so the
residual never changes and the tolerance is never met. -/
def wMat : SparseMatrix ℚ 2 := ⟨fun _ => 0, fun _ => []⟩

/-- Right-hand side for the witness system. -/
def wRhs : Fin 2 → ℚ := ![1, 0]

/-- Zero initial iterate for the witness system. -/
def wU0 : Fin 2 → ℚ := fun _ => 0

/-- C2 witness: on the concrete system all four solvers exhaust a budget of
2 iterations and return iteration count 2 with the last iterate. -/
theorem solvers_return_max_iter_witness :
    jacobiSolve wMat 2 (1 / 1000000) wU0 wRhs
      = ((jacobiSweep wMat wRhs)^[2] wU0, 2) ∧
    sorSolve wMat 2 (1 / 1000000) (1 / 2) wU0 wRhs
      = ((sorSweep wMat wRhs (1 / 2))^[2] wU0, 2) ∧
    ssorSolve wMat 2 (1 / 1000000) (1 / 2) wU0 wRhs
      = ((ssorSweep wMat wRhs (1 / 2))^[2] wU0, 2) ∧
    cgSolve wMat 2 (1 / 1000000) wU0 wRhs
      = (((cgStepWith wMat.multiply)^[2] (cgInit wMat wRhs wU0)).u, 2) := by
  obtain ⟨h1, h2, h3, h4⟩ :=
    solvers_return_max_iter_on_exhaustion wMat wRhs wU0 2 (1 / 1000000) (1 / 2)
  have hmul : ∀ x : Fin 2 → ℚ, wMat.multiply x = 0 := by
    intro x
    funext i
    simp [SparseMatrix.multiply, SparseMatrix.rowSum, wMat]
  have hresid : ∀ u : Fin 2 → ℚ, resid wMat wRhs u = wRhs := by
    intro u
    funext i
    simp [resid, hmul]
  have hrhs : sqNorm wRhs = 1 := by
    simp [sqNorm, Fin.sum_univ_two, wRhs]
  have hfail : ¬ sqNorm wRhs ≤ 1 / 1000000 * (1 / 1000000) * sqNorm wRhs := by
    rw [hrhs]
    norm_num
  have hcg : ∀ k : ℕ, ((cgStepWith wMat.multiply)^[k] (cgInit wMat wRhs wU0)).r = wRhs := by
    intro k
    induction k with
    | zero => simpa [cgInit] using hresid wU0
    | succ m ih =>
      rw [Function.iterate_succ_apply', cgStepWith]
      simp [hmul, ih]
  refine ⟨h1 ?_, h2 ?_, h3 ?_, h4 ?_⟩ <;> intro k hk1 hk2
  · rw [convOK, hresid, hresid, decide_eq_false_iff_not]
    exact hfail
  · rw [convOK, hresid, hresid, decide_eq_false_iff_not]
    exact hfail
  · rw [convOK, hresid, hresid, decide_eq_false_iff_not]
    exact hfail
  · rw [hcg k, decide_eq_false_iff_not]
    simpa [cgInit, hresid wU0] using hfail

/-- The four solver names the driver recognizes (linsol_test_2d.cc lines
175-194). -/
def recognizedMethods : List String := ["jacobi", "sor", "ssor", "cg"]

/-- How a driver invocation can end, as far as argument handling is
concerned: usage error (argc < 4, lines 43-48), unknown method name
(lines 195-199), or proceeding to a solve and the success path. -/
inductive CliOutcome : Type
  | usage : CliOutcome
  | badMethod : CliOutcome
  | proceed : CliOutcome
deriving DecidableEq

/-- The driver's argument handling, translated from linsol_test_2d.cc:
argc counts the program name plus the user arguments, the test is
argc < 4, and the method string is the third user argument (argv[3]). -/
def cliOutcome (args : List String) : CliOutcome :=
  if args.length + 1 < 4 then CliOutcome.usage
  else if args.getD 2 "" ∈ recognizedMethods then CliOutcome.proceed
  else CliOutcome.badMethod

/-- Process exit code of the early-exit outcomes (both paths call
exit(1)); none when the driver proceeds. -/
def cliExitCode : CliOutcome → Option ℕ
  | CliOutcome.usage => some 1
  | CliOutcome.badMethod => some 1
  | CliOutcome.proceed => none

/-- Whether the outcome prints the usage message (only the argc < 4
branch does, lines 45-46). -/
def cliPrintsUsage : CliOutcome → Bool
  | CliOutcome.usage => true
  | CliOutcome.badMethod => false
  | CliOutcome.proceed => false

/-- C6: with fewer than 3 command-line arguments the driver exits with
code 1 and prints the usage message; with at least 3 arguments but a
method name other than jacobi, sor, ssor, cg it exits with code 1. -/
theorem cli_error_exits (args : List String) :
    (args.length < 3 →
      cliExitCode (cliOutcome args) = some 1 ∧
      cliPrintsUsage (cliOutcome args) = true) ∧
    (3 ≤ args.length → args.getD 2 "" ∉ recognizedMethods →
      cliExitCode (cliOutcome args) = some 1) := by
  constructor
  · intro h
    have h4 : args.length + 1 < 4 := by omega
    unfold cliOutcome
    rw [if_pos h4]
    exact ⟨rfl, rfl⟩
  · intro h hm
    have h4 : ¬ args.length + 1 < 4 := by omega
    unfold cliOutcome
    rw [if_neg h4, if_neg hm]
    rfl

/-- C6 witness: a single-argument invocation and a three-argument
invocation with the unrecognized method name gauss. -/
theorem cli_error_exits_witness :
    (cliExitCode (cliOutcome ["2"]) = some 1 ∧
      cliPrintsUsage (cliOutcome ["2"]) = true) ∧
    cliExitCode (cliOutcome ["2", "2", "gauss"]) = some 1 :=
  ⟨(cli_error_exits ["2"]).1 (by simp),
   (cli_error_exits ["2", "2", "gauss"]).2 (by simp) (by simp [recognizedMethods])⟩

/-- Domain bound xmin of the driver (line 25). -/
def xmin : ℚ := 0

/-- Domain bound xmax of the driver (line 25). -/
def xmax : ℚ := 1

/-- Domain bound ymin of the driver (line 26). -/
def ymin : ℚ := 0

/-- Domain bound ymax of the driver (line 26). -/
def ymax : ℚ := 1

/-- Grid spacing dx = (xmax - xmin) / (nx - 1) of the driver (line 55),
with the subtraction nx - 1 performed on naturals as in the unsigned C++
arithmetic. -/
def gridDx (nx : ℕ) : ℚ := (xmax - xmin) / ((nx - 1 : ℕ) : ℚ)

/-- Grid spacing dy = (ymax - ymin) / (ny - 1) of the driver (line 56). -/
def gridDy (ny : ℕ) : ℚ := (ymax - ymin) / ((ny - 1 : ℕ) : ℚ)

/-- Stencil diagonal coefficient a0 = 2/dx^2 + 2/dy^2 (line 59). -/
def a0Of (nx ny : ℕ) : ℚ :=
  2 / (gridDx nx * gridDx nx) + 2 / (gridDy ny * gridDy ny)

/-- Stencil horizontal coefficient a1 = -1/dx^2 (line 60). -/
def a1Of (nx : ℕ) : ℚ := -1 / (gridDx nx * gridDx nx)

/-- Stencil vertical coefficient a2 = -1/dy^2 (line 61). -/
def a2Of (ny : ℕ) : ℚ := -1 / (gridDy ny * gridDy ny)

/-- The convergence tolerance the driver fixes (line 171). -/
def driverTol : ℚ := 1 / 1000000

/-- One line of standard output in the driver's success epilogue
(lines 201-202If and 219). -/
inductive OutLine : Type
  | tolLine : ℚ → OutLine
  | iterLine : ℕ → OutLine
  | savedLine : String → OutLine
deriving DecidableEq

/-- One line of the solution file: either an x, y, u triple or the blank
separator the driver emits after each grid row (lines 207-217). -/
inductive FileLine : Type
  | triple : ℚ → ℚ → ℚ → FileLine
  | blank : FileLine
deriving DecidableEq

/-- What the driver produces after a solve returns: the printed lines, the
output file name and the file contents. -/
structure DriverReport : Type where
  stdout : List OutLine
  fname : String
  fileLines : List FileLine

/-- One grid row of the solution file, translated from the inner output
loop of linsol_test_2d.cc lines 210-216: the nx triples (x, y, u(c)) with
c = i + j*nx, followed by the one blank line of line 216. -/
def rowBlock (nx ny : ℕ) (u : ℕ → ℚ) (j : ℕ) : List FileLine :=
  ((List.range nx).map (fun (i : ℕ) =>
    FileLine.triple (xmin + (i : ℚ) * gridDx nx) (ymin + (j : ℚ) * gridDy ny)
      (u (i + j * nx))))
  ++ [FileLine.blank]

/-- The solution-file contents, translated from the nested output loop of
linsol_test_2d.cc lines 207-217: the row blocks of all ny grid rows in
order. -/
def driverFileLines (nx ny : ℕ) (u : ℕ → ℚ) : List FileLine :=
  ((List.range ny).map (rowBlock nx ny u)).flatten

/-- The driver's post-solve epilogue, translated from lines 201-219: print
the tolerance and the iteration count, write the solution file to the
hard-coded name u.dat, print the saved-file message.  It is executed
unconditionally, with no branch on the returned iteration count. -/
def driverReport (nx ny : ℕ) (u : ℕ → ℚ) (iter : ℕ) : DriverReport :=
  { stdout := [OutLine.tolLine driverTol, OutLine.iterLine iter,
               OutLine.savedLine "u.dat"]
    fname := "u.dat"
    fileLines := driverFileLines nx ny u }

/-- C10: the driver's post-solve reporting happens unconditionally: for any
returned iteration count it prints exactly the tolerance line, the
iteration-count line and the saved-file line, and the printed line
structure, the file contents and the file name are identical whether or
not the returned count equals max_iter (the count only appears inside the
iteration line; there is no non-convergence branch). -/
theorem report_unconditional (nx ny : ℕ) (u : ℕ → ℚ) (iter maxIter : ℕ) :
    (driverReport nx ny u iter).stdout
      = [OutLine.tolLine driverTol, OutLine.iterLine iter,
         OutLine.savedLine "u.dat"] ∧
    (driverReport nx ny u iter).stdout.length
      = (driverReport nx ny u maxIter).stdout.length ∧
    (driverReport nx ny u iter).fileLines
      = (driverReport nx ny u maxIter).fileLines ∧
    (driverReport nx ny u iter).fname
      = (driverReport nx ny u maxIter).fname :=
  ⟨rfl, rfl, rfl, rfl⟩

/-- Blocks of a fixed length L concatenated over range m: total length. -/
theorem flatten_range_length {α : Type} (g : ℕ → List α) (L : ℕ)
    (hg : ∀ j, (g j).length = L) :
    ∀ m : ℕ, (((List.range m).map g).flatten).length = m * L := by
  intro m
  induction m with
  | zero => simp
  | succ k ih =>
    rw [List.range_succ]
    simp only [List.map_append, List.flatten_append, List.length_append, ih]
    simp [hg, Nat.succ_mul]

/-- Blocks of a fixed length L concatenated over range m: the element at
position j * L + t lies in block j at offset t. -/
theorem flatten_range_getElem {α : Type} (g : ℕ → List α) (L : ℕ)
    (hg : ∀ j, (g j).length = L) :
    ∀ m j t : ℕ, j < m → t < L →
      (((List.range m).map g).flatten)[j * L + t]? = (g j)[t]? := by
  intro m
  induction m with
  | zero => intro j t hj _; exact absurd hj (Nat.not_lt_zero j)
  | succ k ih =>
    intro j t hj ht
    rw [List.range_succ, List.map_append, List.flatten_append, List.getElem?_append]
    rw [flatten_range_length g L hg k]
    by_cases hjk : j < k
    · have hlt : j * L + t < k * L := by
        calc j * L + t < j * L + L := Nat.add_lt_add_left ht _
        _ = (j + 1) * L := (Nat.succ_mul j L).symm
        _ ≤ k * L := Nat.mul_le_mul_right L hjk
      rw [if_pos hlt]
      exact ih j t hjk ht
    · have hjeq : j = k := by omega
      subst hjeq
      have hge : ¬ j * L + t < j * L := by omega
      rw [if_neg hge]
      simp [Nat.add_sub_cancel_left]

/-- Inside one row block, offset i < nx is the i-th triple of the row. -/
theorem rowBlock_getElem_lt (nx ny : ℕ) (u : ℕ → ℚ) (j i : ℕ) (hi : i < nx) :
    (rowBlock nx ny u j)[i]? = some (FileLine.triple
      (xmin + (i : ℚ) * gridDx nx) (ymin + (j : ℚ) * gridDy ny)
      (u (i + j * nx))) := by
  unfold rowBlock
  rw [List.getElem?_append]
  have hlen : i < ((List.range nx).map (fun (i : ℕ) =>
      FileLine.triple (xmin + (i : ℚ) * gridDx nx) (ymin + (j : ℚ) * gridDy ny)
        (u (i + j * nx)))).length := by
    simpa using hi
  rw [if_pos hlen, List.getElem?_map, List.getElem?_range hi]
  rfl

/-- Inside one row block, offset nx is the blank separator line. -/
theorem rowBlock_getElem_last (nx ny : ℕ) (u : ℕ → ℚ) (j : ℕ) :
    (rowBlock nx ny u j)[nx]? = some FileLine.blank := by
  unfold rowBlock
  rw [List.getElem?_append]
  have hlen : ((List.range nx).map (fun (i : ℕ) =>
      FileLine.triple (xmin + (i : ℚ) * gridDx nx) (ymin + (j : ℚ) * gridDy ny)
        (u (i + j * nx)))).length = nx := by
    simp
  rw [hlen, if_neg (lt_irrefl nx)]
  simp

/-- C7 counterexample: the output path is not caller-chosen.  The driver
writes to the hard-coded name u.dat for every invocation: two runs with
entirely different grid sizes, solutions and iteration counts produce the
same file name, and a path a caller might choose, such as sol.dat, is
never produced. -/
theorem report_path_not_caller_chosen :
    (driverReport 2 2 (fun _ => 0) 5).fname = "u.dat" ∧
    (driverReport 3 4 (fun c => (c : ℚ)) 7).fname = "u.dat" ∧
    (driverReport 2 2 (fun _ => 0) 5).fname ≠ "sol.dat" :=
  ⟨rfl, rfl, by simp [driverReport]⟩

/-- C7 (amended: the output file goes to the fixed path u.dat, not to a
caller-chosen path): on a successful run the driver prints the fixed
tolerance 1e-6 and the iteration count, and the file it writes at u.dat
consists, for each grid row j, of the nx whitespace-separated (x, y, u)
triples of that row followed by a blank separator line. -/
theorem report_success_structure (nx ny : ℕ) (u : ℕ → ℚ) (iter : ℕ) :
    (driverReport nx ny u iter).stdout
      = [OutLine.tolLine (1 / 1000000), OutLine.iterLine iter,
         OutLine.savedLine "u.dat"] ∧
    (driverReport nx ny u iter).fname = "u.dat" ∧
    (driverReport nx ny u iter).fileLines.length = ny * (nx + 1) ∧
    (∀ j i : ℕ, j < ny → i < nx →
      (driverReport nx ny u iter).fileLines[j * (nx + 1) + i]?
        = some (FileLine.triple (xmin + (i : ℚ) * gridDx nx)
            (ymin + (j : ℚ) * gridDy ny) (u (i + j * nx)))) ∧
    (∀ j : ℕ, j < ny →
      (driverReport nx ny u iter).fileLines[j * (nx + 1) + nx]?
        = some FileLine.blank) := by
  have hg : ∀ j, (rowBlock nx ny u j).length = nx + 1 := by
    intro j
    simp [rowBlock]
  refine ⟨rfl, rfl, ?_, ?_, ?_⟩
  · exact flatten_range_length (rowBlock nx ny u) (nx + 1) hg ny
  · intro j i hj hi
    have := flatten_range_getElem (rowBlock nx ny u) (nx + 1) hg ny j i hj (by omega)
    calc (driverReport nx ny u iter).fileLines[j * (nx + 1) + i]?
        = (rowBlock nx ny u j)[i]? := this
      _ = _ := rowBlock_getElem_lt nx ny u j i hi
  · intro j hj
    have := flatten_range_getElem (rowBlock nx ny u) (nx + 1) hg ny j nx hj (by omega)
    calc (driverReport nx ny u iter).fileLines[j * (nx + 1) + nx]?
        = (rowBlock nx ny u j)[nx]? := this
      _ = _ := rowBlock_getElem_last nx ny u j

/-- C7 witness: concrete file-layout facts for a 2x2 grid obtained from
the structure theorem. -/
theorem report_success_structure_witness :
    (driverReport 2 2 (fun _ => 0) 5).fileLines[1 * (2 + 1) + 0]?
      = some (FileLine.triple (xmin + (0 : ℚ) * gridDx 2)
          (ymin + (1 : ℚ) * gridDy 2) ((fun _ => (0 : ℚ)) (0 + 1 * 2))) ∧
    (driverReport 2 2 (fun _ => 0) 5).fileLines[1 * (2 + 1) + 2]?
      = some FileLine.blank :=
  ⟨(report_success_structure 2 2 (fun _ => 0) 5).2.2.2.1 1 0 (by decide) (by decide),
   (report_success_structure 2 2 (fun _ => 0) 5).2.2.2.2 1 (by decide)⟩

/-- The sequence of set calls (row, column, value) the driver's assembly
loop body emits for cell (i, j), translated from linsol_test_2d.cc lines
67-78: the diagonal first, then the guarded left, right, bottom and top
neighbor entries, all with row index c = i + j*nx. -/
def cellCalls (nx ny i j : ℕ) : List (ℕ × ℕ × ℚ) :=
  (i + j * nx, i + j * nx, a0Of nx ny) ::
    (((if 0 < i then [((i - 1) + j * nx, a1Of nx)] else []) ++
      (if i < nx - 1 then [((i + 1) + j * nx, a1Of nx)] else []) ++
      (if 0 < j then [(i + (j - 1) * nx, a2Of ny)] else []) ++
      (if j < ny - 1 then [(i + (j + 1) * nx, a2Of ny)] else [])).map
      (fun e => (i + j * nx, e.1, e.2)))

/-- The cell order of the assembly loops (i outer over range nx, j inner
over range ny), lines 65-66. -/
def cellList (nx ny : ℕ) : List (ℕ × ℕ) :=
  ((List.range nx).map (fun i => (List.range ny).map (fun j => (i, j)))).flatten

/-- The full sequence of set calls of the assembly phase, in program
order. -/
def assemblyCalls (nx ny : ℕ) : List (ℕ × ℕ × ℚ) :=
  ((cellList nx ny).map (fun p => cellCalls nx ny p.1 p.2)).flatten

/-- Every call emitted for cell (i, j) carries row index i + j*nx. -/
theorem cellCalls_row (nx ny i j : ℕ) :
    ∀ e ∈ cellCalls nx ny i j, e.1 = i + j * nx := by
  intro e he
  rcases List.mem_cons.mp he with h | h
  · rw [h]
  · obtain ⟨a, _, rfl⟩ := List.mem_map.mp h
    rfl

/-- Cell membership in the assembly order. -/
theorem mem_cellList {nx ny i j : ℕ} :
    (i, j) ∈ cellList nx ny ↔ i < nx ∧ j < ny := by
  constructor
  · intro h
    obtain ⟨L, hL, hmem⟩ := List.mem_flatten.mp h
    obtain ⟨i', hi', rfl⟩ := List.mem_map.mp hL
    obtain ⟨j', hj', heq⟩ := List.mem_map.mp hmem
    have h1 : i' = i ∧ j' = j := by
      have := heq
      simp only [Prod.mk.injEq] at this
      exact ⟨this.1, this.2⟩
    obtain ⟨rfl, rfl⟩ := h1
    exact ⟨List.mem_range.mp hi', List.mem_range.mp hj'⟩
  · rintro ⟨hi, hj⟩
    refine List.mem_flatten.mpr ⟨(List.range ny).map (fun j => (i, j)), ?_, ?_⟩
    · exact List.mem_map.mpr ⟨i, List.mem_range.mpr hi, rfl⟩
    · exact List.mem_map.mpr ⟨j, List.mem_range.mpr hj, rfl⟩

/-- The cell index map (i, j) to i + j*nx is injective for i < nx. -/
theorem cell_index_inj {nx i j i' j' : ℕ} (hi : i < nx) (hi' : i' < nx)
    (h : i + j * nx = i' + j' * nx) : i = i' ∧ j = j' := by
  have hmod : (i + j * nx) % nx = i := by
    rw [Nat.add_mul_mod_self_right, Nat.mod_eq_of_lt hi]
  have hmod' : (i' + j' * nx) % nx = i' := by
    rw [Nat.add_mul_mod_self_right, Nat.mod_eq_of_lt hi']
  have hii : i = i' := by rw [← hmod, ← hmod', h]
  refine ⟨hii, ?_⟩
  have hx : 0 < nx := by omega
  have : j * nx = j' * nx := by omega
  exact Nat.eq_of_mul_eq_mul_right hx this

/-- Head of the filtered concatenation of blocks: when every block other
than the one of the marked element filters to nothing and the marked
block's filtered form is nonempty, the overall head is the marked block's
head. -/
theorem head_filter_flatten {α β : Type} (p : α → Bool) (f : β → List α) :
    ∀ (l : List β) (t : β), t ∈ l → ((f t).filter p ≠ []) →
      (∀ b ∈ l, b ≠ t → (f b).filter p = []) →
      (((l.map f).flatten).filter p).head? = ((f t).filter p).head? := by
  intro l
  induction l with
  | nil => intro t ht _ _; exact absurd ht (List.not_mem_nil t)
  | cons b bs ih =>
    intro t ht hne hothers
    by_cases hbt : b = t
    · subst hbt
      simp only [List.map_cons, List.flatten_cons, List.filter_append]
      rw [List.head?_append]
      cases hcase : (f b).filter p with
      | nil => exact absurd hcase hne
      | cons v vs => simp
    · have hb0 : (f b).filter p = [] := hothers b (List.mem_cons_self b bs) hbt
      have ht' : t ∈ bs := by
        rcases List.mem_cons.mp ht with h | h
        · exact absurd h.symm hbt
        · exact h
      simp only [List.map_cons, List.flatten_cons, List.filter_append, hb0,
        List.nil_append]
      exact ih t ht' hne (fun b' hb' => hothers b' (List.mem_cons_of_mem b hb'))

/-- C8: for every grid with nx, ny at least 2, the assembly loop's first
set call for every row c supplies col = row with the diagonal value
a0 = 2/dx^2 + 2/dy^2, and that value is strictly positive, so every row
used in a solve has a nonzero diagonal. -/
theorem assembly_diagonal_first (nx ny : ℕ) (hx : 2 ≤ nx) (hy : 2 ≤ ny) :
    (∀ c : ℕ, c < nx * ny →
      ((assemblyCalls nx ny).filter (fun e => e.1 = c)).head?
        = some (c, c, a0Of nx ny)) ∧
    0 < a0Of nx ny := by
  have hnx1 : (0 : ℚ) < ((nx - 1 : ℕ) : ℚ) := by
    exact_mod_cast (by omega : 0 < nx - 1)
  have hny1 : (0 : ℚ) < ((ny - 1 : ℕ) : ℚ) := by
    exact_mod_cast (by omega : 0 < ny - 1)
  have hdx : 0 < gridDx nx := by
    unfold gridDx xmax xmin
    exact div_pos (by norm_num) hnx1
  have hdy : 0 < gridDy ny := by
    unfold gridDy ymax ymin
    exact div_pos (by norm_num) hny1
  have ha0 : 0 < a0Of nx ny :=
    add_pos (div_pos two_pos (mul_pos hdx hdx)) (div_pos two_pos (mul_pos hdy hdy))
  refine ⟨?_, ha0⟩
  intro c hc
  have hx0 : 0 < nx := by omega
  have hi0 : c % nx < nx := Nat.mod_lt _ hx0
  have hj0 : c / nx < ny := by
    rw [mul_comm] at hc
    exact (Nat.div_lt_iff_lt_mul hx0).mpr hc
  have hc0 : c % nx + c / nx * nx = c := Nat.mod_add_div' c nx
  have hmem : (c % nx, c / nx) ∈ cellList nx ny := mem_cellList.mpr ⟨hi0, hj0⟩
  have hphead : ((fun e : ℕ × ℕ × ℚ => decide (e.1 = c))
      (c % nx + c / nx * nx, c % nx + c / nx * nx, a0Of nx ny)) = true := by
    simp [hc0]
  have hne : (cellCalls nx ny (c % nx) (c / nx)).filter
      (fun e => decide (e.1 = c)) ≠ [] := by
    simp [cellCalls, hc0]
  have hothers : ∀ b ∈ cellList nx ny, b ≠ (c % nx, c / nx) →
      (cellCalls nx ny b.1 b.2).filter (fun e => decide (e.1 = c)) = [] := by
    intro b hb hbne
    refine List.filter_eq_nil_iff.mpr ?_
    intro a ha
    have harow : a.1 = b.1 + b.2 * nx := cellCalls_row nx ny b.1 b.2 a ha
    obtain ⟨bi, bj⟩ := b
    have hblt := mem_cellList.mp hb
    simp only [decide_eq_true_eq]
    intro hac
    rw [harow] at hac
    have hinj := cell_index_inj hblt.1 hi0 (hac.trans hc0.symm)
    exact hbne (by simp only [Prod.mk.injEq]; exact ⟨hinj.1, hinj.2⟩)
  unfold assemblyCalls
  rw [head_filter_flatten (fun e => decide (e.1 = c))
    (fun p => cellCalls nx ny p.1 p.2) (cellList nx ny) (c % nx, c / nx)
    hmem hne hothers]
  simp [cellCalls, hc0]

/-- C8 witness: on the 2x2 grid, the first set call for row 3 is the
diagonal with value a0, and a0 is positive. -/
theorem assembly_diagonal_first_witness :
    ((assemblyCalls 2 2).filter (fun e => e.1 = 3)).head? = some (3, 3, a0Of 2 2) ∧
    0 < a0Of 2 2 :=
  ⟨(assembly_diagonal_first 2 2 (by decide) (by decide)).1 3 (by decide),
   (assembly_diagonal_first 2 2 (by decide) (by decide)).2⟩

/-- Modelled from the spec: the CG recurrence of cg_solver.h run in exact
arithmetic on a dense matrix over an arbitrary field, using the same step
function cgStepWith as the executable solver, with the matrix-vector
product instantiated by Matrix.mulVec. -/
def cgSeq {K : Type} [Field K] {n : ℕ} (A : Matrix (Fin n) (Fin n) K)
    (b x0 : Fin n → K) : ℕ → CGState K n
  | 0 => { u := x0, r := b - A.mulVec x0, p := b - A.mulVec x0 }
  | k + 1 => cgStepWith A.mulVec (cgSeq A b x0 k)

/-- The residual sequence of the exact-arithmetic CG run. -/
def cgResid {K : Type} [Field K] {n : ℕ} (A : Matrix (Fin n) (Fin n) K)
    (b x0 : Fin n → K) (k : ℕ) : Fin n → K :=
  (cgSeq A b x0 k).r

/-- The search-direction sequence of the exact-arithmetic CG run. -/
def cgDir {K : Type} [Field K] {n : ℕ} (A : Matrix (Fin n) (Fin n) K)
    (b x0 : Fin n → K) (k : ℕ) : Fin n → K :=
  (cgSeq A b x0 k).p

/-- The CG step length alpha of step k. -/
def cgAlpha {K : Type} [Field K] {n : ℕ} (A : Matrix (Fin n) (Fin n) K)
    (b x0 : Fin n → K) (k : ℕ) : K :=
  dotProd (cgResid A b x0 k) (cgResid A b x0 k)
    / dotProd (cgDir A b x0 k) (A.mulVec (cgDir A b x0 k))

/-- The CG direction-update coefficient beta of step k. -/
def cgBeta {K : Type} [Field K] {n : ℕ} (A : Matrix (Fin n) (Fin n) K)
    (b x0 : Fin n → K) (k : ℕ) : K :=
  dotProd (cgResid A b x0 (k + 1)) (cgResid A b x0 (k + 1))
    / dotProd (cgResid A b x0 k) (cgResid A b x0 k)

theorem cgDir_zero {K : Type} [Field K] {n : ℕ} (A : Matrix (Fin n) (Fin n) K)
    (b x0 : Fin n → K) : cgDir A b x0 0 = cgResid A b x0 0 := rfl

theorem cgResid_succ {K : Type} [Field K] {n : ℕ}
    (A : Matrix (Fin n) (Fin n) K) (b x0 : Fin n → K) (k : ℕ) :
    cgResid A b x0 (k + 1)
      = cgResid A b x0 k - cgAlpha A b x0 k • A.mulVec (cgDir A b x0 k) := rfl

theorem cgDir_succ {K : Type} [Field K] {n : ℕ}
    (A : Matrix (Fin n) (Fin n) K) (b x0 : Fin n → K) (k : ℕ) :
    cgDir A b x0 (k + 1)
      = cgResid A b x0 (k + 1) + cgBeta A b x0 k • cgDir A b x0 k := rfl

theorem dotProd_comm {K : Type} [Field K] {n : ℕ} (v w : Fin n → K) :
    dotProd v w = dotProd w v := by
  unfold dotProd
  exact Finset.sum_congr rfl fun i _ => mul_comm _ _

theorem dotProd_add_right {K : Type} [Field K] {n : ℕ} (v w z : Fin n → K) :
    dotProd v (w + z) = dotProd v w + dotProd v z := by
  unfold dotProd
  rw [← Finset.sum_add_distrib]
  exact Finset.sum_congr rfl fun i _ => by simp [mul_add]

theorem dotProd_sub_right {K : Type} [Field K] {n : ℕ} (v w z : Fin n → K) :
    dotProd v (w - z) = dotProd v w - dotProd v z := by
  unfold dotProd
  rw [← Finset.sum_sub_distrib]
  exact Finset.sum_congr rfl fun i _ => by simp [mul_sub]

theorem dotProd_smul_right {K : Type} [Field K] {n : ℕ} (c : K)
    (v w : Fin n → K) : dotProd v (c • w) = c * dotProd v w := by
  unfold dotProd
  rw [Finset.mul_sum]
  refine Finset.sum_congr rfl fun i _ => ?_
  simp only [Pi.smul_apply, smul_eq_mul]
  ring

theorem dotProd_add_left {K : Type} [Field K] {n : ℕ} (v w z : Fin n → K) :
    dotProd (v + w) z = dotProd v z + dotProd w z := by
  rw [dotProd_comm, dotProd_add_right, dotProd_comm z v, dotProd_comm z w]

theorem dotProd_sub_left {K : Type} [Field K] {n : ℕ} (v w z : Fin n → K) :
    dotProd (v - w) z = dotProd v z - dotProd w z := by
  rw [dotProd_comm, dotProd_sub_right, dotProd_comm z v, dotProd_comm z w]

theorem dotProd_smul_left {K : Type} [Field K] {n : ℕ} (c : K)
    (v w : Fin n → K) : dotProd (c • v) w = c * dotProd v w := by
  rw [dotProd_comm, dotProd_smul_right, dotProd_comm w v]

theorem dotProd_self_nonneg {K : Type} [LinearOrderedField K] {n : ℕ}
    (v : Fin n → K) : 0 ≤ dotProd v v :=
  Finset.sum_nonneg fun i _ => mul_self_nonneg (v i)

theorem dotProd_self_eq_zero_iff {K : Type} [LinearOrderedField K] {n : ℕ}
    (v : Fin n → K) : dotProd v v = 0 ↔ v = 0 := by
  unfold dotProd
  rw [Finset.sum_eq_zero_iff_of_nonneg fun i _ => mul_self_nonneg (v i)]
  constructor
  · intro h
    funext i
    exact mul_self_eq_zero.mp (h i (Finset.mem_univ i))
  · intro h i _
    rw [h]
    simp

theorem dotProd_self_pos {K : Type} [LinearOrderedField K] {n : ℕ}
    {v : Fin n → K} (hv : v ≠ 0) : 0 < dotProd v v :=
  lt_of_le_of_ne (dotProd_self_nonneg v)
    (fun h => hv ((dotProd_self_eq_zero_iff v).mp h.symm))

/-- For a Hermitian (over the reals: symmetric) matrix the bilinear form
sending x, y to x . (A y) is symmetric in its two arguments. -/
theorem dotProd_mulVec_symm {n : ℕ} {A : Matrix (Fin n) (Fin n) ℝ}
    (hA : A.IsHermitian) (x y : Fin n → ℝ) :
    dotProd (A.mulVec x) y = dotProd x (A.mulVec y) := by
  have ht : A.transpose = A := by
    rw [← Matrix.conjTranspose_eq_transpose_of_trivial A]
    exact hA
  show Matrix.dotProduct (A.mulVec x) y = Matrix.dotProduct x (A.mulVec y)
  rw [Matrix.dotProduct_mulVec x A y, ← Matrix.mulVec_transpose A x, ht]

/-- For a positive-definite real matrix, the quadratic form is positive on
every nonzero vector, phrased through dotProd. -/
theorem dotProd_mulVec_posdef {n : ℕ} {A : Matrix (Fin n) (Fin n) ℝ}
    (hA : A.PosDef) {x : Fin n → ℝ} (hx : x ≠ 0) :
    0 < dotProd x (A.mulVec x) := by
  have := hA.2 x hx
  simpa [Matrix.dotProduct, dotProd] using this

theorem dotProd_zero_left {K : Type} [Field K] {n : ℕ} (w : Fin n → K) :
    dotProd 0 w = 0 := by
  unfold dotProd
  simp

theorem dotProd_zero_right {K : Type} [Field K] {n : ℕ} (v : Fin n → K) :
    dotProd v 0 = 0 := by
  unfold dotProd
  simp

theorem dotProd_sum_left {K : Type} [Field K] {n : ℕ} {ι : Type}
    (s : Finset ι) (f : ι → (Fin n → K)) (w : Fin n → K) :
    dotProd (∑ i ∈ s, f i) w = ∑ i ∈ s, dotProd (f i) w := by
  unfold dotProd
  simp only [Finset.sum_apply, Finset.sum_mul]
  exact Finset.sum_comm

/-- The standard CG orthogonality invariants, proved by induction along the
recurrence for a symmetric positive operator: as long as all residuals up
to step k are nonzero, the residuals are pairwise orthogonal, the search
directions are pairwise A-conjugate, and each residual has the same inner
product with its own direction as with itself. -/
theorem cg_invariants {K : Type} [LinearOrderedField K] {n : ℕ}
    (A : Matrix (Fin n) (Fin n) K) (b x0 : Fin n → K)
    (hsym : ∀ x y : Fin n → K, dotProd (A.mulVec x) y = dotProd x (A.mulVec y))
    (hpos : ∀ x : Fin n → K, x ≠ 0 → 0 < dotProd x (A.mulVec x)) :
    ∀ k : ℕ, (∀ j, j ≤ k → cgResid A b x0 j ≠ 0) →
      (∀ i j, i < j → j ≤ k →
        dotProd (cgResid A b x0 i) (cgResid A b x0 j) = 0) ∧
      (∀ i j, i < j → j ≤ k →
        dotProd (cgDir A b x0 i) (A.mulVec (cgDir A b x0 j)) = 0) ∧
      (∀ j, j ≤ k → dotProd (cgResid A b x0 j) (cgDir A b x0 j)
          = dotProd (cgResid A b x0 j) (cgResid A b x0 j)) := by
  have hr0 : cgResid A b x0 0 = cgDir A b x0 0 := (cgDir_zero A b x0).symm
  have hrsucc : ∀ m : ℕ, cgResid A b x0 (m + 1)
      = cgDir A b x0 (m + 1) - cgBeta A b x0 m • cgDir A b x0 m := by
    intro m
    rw [cgDir_succ]
    rw [add_sub_cancel_right]
  intro k
  induction k with
  | zero =>
    intro _
    refine ⟨?_, ?_, ?_⟩
    · intro i j hij hj
      omega
    · intro i j hij hj
      omega
    · intro j hj
      have hj0 : j = 0 := by omega
      subst hj0
      rw [hr0]
  | succ k ih =>
    intro hnz
    have hnz' : ∀ j, j ≤ k → cgResid A b x0 j ≠ 0 :=
      fun j hj => hnz j (le_trans hj (Nat.le_succ k))
    obtain ⟨IH1, IH2, IH3⟩ := ih hnz'
    have hrr_pos : ∀ j, j ≤ k →
        0 < dotProd (cgResid A b x0 j) (cgResid A b x0 j) :=
      fun j hj => dotProd_self_pos (hnz' j hj)
    have hp_ne : ∀ j, j ≤ k → cgDir A b x0 j ≠ 0 := by
      intro j hj hp0
      have h3 := IH3 j hj
      rw [hp0, dotProd_zero_right] at h3
      exact absurd h3.symm (ne_of_gt (hrr_pos j hj))
    have hpAp_pos : ∀ j, j ≤ k →
        0 < dotProd (cgDir A b x0 j) (A.mulVec (cgDir A b x0 j)) :=
      fun j hj => hpos _ (hp_ne j hj)
    have halpha_ne : ∀ j, j ≤ k → cgAlpha A b x0 j ≠ 0 := by
      intro j hj
      exact div_ne_zero (ne_of_gt (hrr_pos j hj)) (ne_of_gt (hpAp_pos j hj))
    have halphamul : ∀ j, j ≤ k →
        cgAlpha A b x0 j * dotProd (cgDir A b x0 j) (A.mulVec (cgDir A b x0 j))
          = dotProd (cgResid A b x0 j) (cgResid A b x0 j) := by
      intro j hj
      unfold cgAlpha
      exact div_mul_cancel₀ _ (ne_of_gt (hpAp_pos j hj))
    have hAp_dot : ∀ j, j ≤ k → ∀ x : Fin n → K,
        dotProd x (A.mulVec (cgDir A b x0 j))
          = (cgAlpha A b x0 j)⁻¹ * (dotProd x (cgResid A b x0 j)
              - dotProd x (cgResid A b x0 (j + 1))) := by
      intro j hj x
      have h1 : cgAlpha A b x0 j • A.mulVec (cgDir A b x0 j)
          = cgResid A b x0 j - cgResid A b x0 (j + 1) := by
        rw [cgResid_succ]
        rw [sub_sub_cancel]
      have h2 : cgAlpha A b x0 j * dotProd x (A.mulVec (cgDir A b x0 j))
          = dotProd x (cgResid A b x0 j) - dotProd x (cgResid A b x0 (j + 1)) := by
        rw [← dotProd_smul_right, h1, dotProd_sub_right]
      rw [← h2, inv_mul_cancel_left₀ (halpha_ne j hj)]
    have hrAp : ∀ i, i ≤ k →
        dotProd (cgResid A b x0 i) (A.mulVec (cgDir A b x0 k))
          = (if i = k
              then dotProd (cgDir A b x0 k) (A.mulVec (cgDir A b x0 k))
              else 0) := by
      intro i hik
      cases i with
      | zero =>
        rw [hr0]
        by_cases h0k : 0 = k
        · rw [if_pos h0k, ← h0k]
        · rw [if_neg h0k]
          exact IH2 0 k (by omega) le_rfl
      | succ m =>
        rw [hrsucc m, dotProd_sub_left, dotProd_smul_left]
        by_cases hmk : m + 1 = k
        · rw [if_pos hmk, hmk]
          have hm : m < k := by omega
          rw [IH2 m k hm le_rfl]
          ring
        · rw [if_neg hmk]
          have hm1 : m + 1 < k := by omega
          rw [IH2 (m + 1) k hm1 le_rfl, IH2 m k (by omega) le_rfl]
          ring
    have G1 : ∀ i, i ≤ k →
        dotProd (cgResid A b x0 i) (cgResid A b x0 (k + 1)) = 0 := by
      intro i hik
      rw [cgResid_succ, dotProd_sub_right, dotProd_smul_right, hrAp i hik]
      by_cases hik' : i = k
      · rw [if_pos hik', hik', halphamul k le_rfl]
        exact sub_self _
      · rw [if_neg hik']
        rw [IH1 i k (by omega) le_rfl]
        ring
    have hrp_next : dotProd (cgResid A b x0 (k + 1)) (cgDir A b x0 k) = 0 := by
      rw [cgResid_succ, dotProd_sub_left, dotProd_smul_left]
      rw [dotProd_comm (A.mulVec (cgDir A b x0 k)) (cgDir A b x0 k)]
      rw [IH3 k le_rfl, halphamul k le_rfl]
      exact sub_self _
    have G3 : dotProd (cgResid A b x0 (k + 1)) (cgDir A b x0 (k + 1))
        = dotProd (cgResid A b x0 (k + 1)) (cgResid A b x0 (k + 1)) := by
      rw [cgDir_succ, dotProd_add_right, dotProd_smul_right, hrp_next]
      ring
    have G2 : ∀ i, i ≤ k →
        dotProd (cgDir A b x0 i) (A.mulVec (cgDir A b x0 (k + 1))) = 0 := by
      intro i hik
      rw [cgDir_succ, Matrix.mulVec_add, Matrix.mulVec_smul, dotProd_add_right,
        dotProd_smul_right]
      have hterm1 : dotProd (cgDir A b x0 i) (A.mulVec (cgResid A b x0 (k + 1)))
          = (cgAlpha A b x0 i)⁻¹
              * (dotProd (cgResid A b x0 (k + 1)) (cgResid A b x0 i)
                - dotProd (cgResid A b x0 (k + 1)) (cgResid A b x0 (i + 1))) := by
        rw [← hsym, dotProd_comm, hAp_dot i hik]
      rw [hterm1]
      by_cases hik' : i = k
      · rw [hik']
        have e1 : dotProd (cgResid A b x0 (k + 1)) (cgResid A b x0 k) = 0 := by
          rw [dotProd_comm]
          exact G1 k le_rfl
        rw [e1]
        have h1 : dotProd (cgResid A b x0 k) (cgResid A b x0 k) ≠ 0 :=
          ne_of_gt (hrr_pos k le_rfl)
        have h2 : dotProd (cgDir A b x0 k) (A.mulVec (cgDir A b x0 k)) ≠ 0 :=
          ne_of_gt (hpAp_pos k le_rfl)
        unfold cgAlpha cgBeta
        field_simp
        ring
      · have hik'' : i < k := by omega
        have e1 : dotProd (cgResid A b x0 (k + 1)) (cgResid A b x0 i) = 0 := by
          rw [dotProd_comm]
          exact G1 i hik
        have e2 : dotProd (cgResid A b x0 (k + 1)) (cgResid A b x0 (i + 1)) = 0 := by
          rw [dotProd_comm]
          exact G1 (i + 1) (by omega)
        have e3 : dotProd (cgDir A b x0 i) (A.mulVec (cgDir A b x0 k)) = 0 :=
          IH2 i k hik'' le_rfl
        rw [e1, e2, e3]
        ring
    refine ⟨?_, ?_, ?_⟩
    · intro i j hij hj
      by_cases hj' : j ≤ k
      · exact IH1 i j hij hj'
      · have hjk : j = k + 1 := by omega
        subst hjk
        exact G1 i (by omega)
    · intro i j hij hj
      by_cases hj' : j ≤ k
      · exact IH2 i j hij hj'
      · have hjk : j = k + 1 := by omega
        subst hjk
        exact G2 i (by omega)
    · intro j hj
      by_cases hj' : j ≤ k
      · exact IH3 j hj'
      · have hjk : j = k + 1 := by omega
        subst hjk
        exact G3

/-- C4: for every symmetric positive-definite n-by-n real matrix,
right-hand side and initial guess, the conjugate gradient recurrence run
in exact arithmetic reaches a zero residual at or before n iterations (a
zero residual satisfies the solver's convergence criterion for every
nonnegative tolerance, so the solve loop terminates by it).  Proof: were
all residuals r_0, ..., r_n nonzero, they would be n + 1 pairwise
orthogonal nonzero vectors of an n-dimensional space. -/
theorem cg_reaches_zero_residual {n : ℕ} (A : Matrix (Fin n) (Fin n) ℝ)
    (hA : A.PosDef) (b x0 : Fin n → ℝ) :
    ∃ k, k ≤ n ∧ cgResid A b x0 k = 0 := by
  by_contra hcon
  push_neg at hcon
  have hsym : ∀ x y : Fin n → ℝ,
      dotProd (A.mulVec x) y = dotProd x (A.mulVec y) :=
    fun x y => dotProd_mulVec_symm hA.isHermitian x y
  have hpos : ∀ x : Fin n → ℝ, x ≠ 0 → 0 < dotProd x (A.mulVec x) :=
    fun x hx => dotProd_mulVec_posdef hA hx
  have hnz : ∀ j, j ≤ n → cgResid A b x0 j ≠ 0 := fun j hj => hcon j hj
  obtain ⟨I1, _, _⟩ := cg_invariants A b x0 hsym hpos n hnz
  have horth : ∀ i j : Fin (n + 1), i ≠ j →
      dotProd (cgResid A b x0 i.val) (cgResid A b x0 j.val) = 0 := by
    intro i j hij
    rcases Nat.lt_or_ge i.val j.val with h | h
    · exact I1 i.val j.val h (Nat.lt_succ_iff.mp j.isLt)
    · have hji : j.val < i.val := by
        rcases Nat.lt_or_ge j.val i.val with h' | h'
        · exact h'
        · exact absurd (Fin.ext (le_antisymm h' h)) hij
      rw [dotProd_comm]
      exact I1 j.val i.val hji (Nat.lt_succ_iff.mp i.isLt)
  have hli : LinearIndependent ℝ (fun i : Fin (n + 1) => cgResid A b x0 i.val) := by
    rw [Fintype.linearIndependent_iff]
    intro g hg j
    have hdj := congrArg (fun v => dotProd v (cgResid A b x0 j.val)) hg
    simp only at hdj
    rw [dotProd_sum_left, dotProd_zero_left] at hdj
    have hsingle : (∑ i : Fin (n + 1),
        dotProd (g i • cgResid A b x0 i.val) (cgResid A b x0 j.val))
        = g j * dotProd (cgResid A b x0 j.val) (cgResid A b x0 j.val) := by
      rw [Finset.sum_eq_single j]
      · rw [dotProd_smul_left]
      · intro i _ hij
        rw [dotProd_smul_left, horth i j hij]
        ring
      · intro h
        exact absurd (Finset.mem_univ j) h
    rw [hsingle] at hdj
    rcases mul_eq_zero.mp hdj with h | h
    · exact h
    · exact absurd h (ne_of_gt (dotProd_self_pos
        (hnz j.val (Nat.lt_succ_iff.mp j.isLt))))
  have hcard := hli.fintype_card_le_finrank
  rw [Module.finrank_fin_fun] at hcard
  rw [Fintype.card_fin] at hcard
  omega

/-- C4 witness: the identity matrix on one unknown is symmetric positive
definite, so CG reaches a zero residual within one iteration. -/
theorem cg_reaches_zero_residual_witness :
    ∃ k, k ≤ 1 ∧ cgResid (1 : Matrix (Fin 1) (Fin 1) ℝ)
      (fun _ => 1) (fun _ => 0) k = 0 :=
  cg_reaches_zero_residual (1 : Matrix (Fin 1) (Fin 1) ℝ) Matrix.PosDef.one
    (fun _ => 1) (fun _ => 0)
